import Mathlib

/-!
Verification of the ts-spreadsheet ("typesheet") row-evaluation engine.

The development shallowly embeds the core of the repository:

* the dependency compiler `compileExecutionOrder` (depth-first traversal
  with three-state marking and cycle detection), from both source variants
  (the two files define it with identical bodies);
* the row evaluator `evaluateRow` and the sequence driver `processRows`
  from the primary variant (raw cell values), and the second variant
  (`EngineTs` namespace) that stores each result wrapped in an
  evaluatedValue object;
* the error type `CircularDependencyError` modelled by the `circular`
  constructor of `EngineError`.

JavaScript objects used as string-keyed records are embedded as functions
from `String` to `Option` of the stored value; object assignment is
`setCell`.  Exceptions are embedded with `Except`.  The recursion of the
compiler is driven by a fuel parameter; the fuel is chosen large enough
(template size plus one) that it is provably never exhausted, so the
`outOfFuel` branch is unreachable for the exported entry points.
-/

/-- Cell value kinds, from the source union type 'number' | 'string' | 'boolean'. -/
inductive CellTy where
  | number : CellTy
  | str : CellTy
  | boolean : CellTy
deriving DecidableEq, Repr

/-- Runtime values stored in cells.  JavaScript numbers are modelled as
integers (all values exercised by the claims are integral).  The `wrapped`
constructor models the one-field object that the engine.ts variant stores
for each cell, namely an object whose single field evaluatedValue holds
the formula result. -/
inductive Value where
  | num : Int → Value
  | str : String → Value
  | bool : Bool → Value
  | wrapped : Value → Value
deriving DecidableEq, Repr

/-- A row state: a string-keyed record of cell values.  `none` models an
absent key, so the same type serves for the partial current row and the
complete previous row. -/
def RowState : Type := String → Option Value

/-- The empty object literal used to start each row. -/
def emptyRowState : RowState := fun _ => none

/-- JavaScript object assignment rowState[cellName] = result. -/
def setCell (r : RowState) (k : String) (v : Value) : RowState :=
  fun k2 => if k2 = k then some v else r k2

/-- The constant inputs record.  TypedInputs is total on the input names a
formula mentions, so it is modelled as a total function. -/
def Inputs : Type := String → Value

/-- Context object passed to formulas: previous complete row (or null),
partial current row, and the inputs. -/
structure FormulaContext where
  prevRow : Option RowState
  currRow : RowState
  inputs : Inputs

/-- Definition of a cell's behavior: declared kind, formula, and declared
same-row dependencies. -/
structure CellDef where
  type : CellTy
  formula : FormulaContext → Value
  currRowDependencies : List String

/-- One entry of the column schema. -/
structure CellSchema where
  name : String
  type : CellTy
deriving DecidableEq, Repr

/-- The template: a name-keyed record of cell definitions, embedded as an
association list (the TypeScript object has finitely many keys). -/
abbrev Template : Type := List (String × CellDef)

/-- Names having a definition in the template (object keys). -/
def templateKeys (t : Template) : List String := t.map (fun p => p.1)

/-- JavaScript property read template[cellName]: the first binding wins,
absent keys read as undefined (`none`). -/
def lookupCell : Template → String → Option CellDef
  | [], _ => none
  | (k, d) :: rest, c => if c = k then some d else lookupCell rest c

/-- Declared same-row dependencies of a column; empty when the column has
no template entry (such a read would crash at run time, and well-formed
inputs rule it out). -/
def depsOf (t : Template) (c : String) : List String :=
  ((lookupCell t c).map (fun d => d.currRowDependencies)).getD []

/-- Errors raised by the engine.  `circular c` models a
CircularDependencyError whose message is
"Circular dependency detected involving " ++ c; `typeError` models the
TypeError JavaScript raises when template[name] is undefined and its
fields are read; `outOfFuel` is an artifact of the embedding's fuel
counter, proved unreachable for the exported entry points. -/
inductive EngineError where
  | circular : String → EngineError
  | typeError : EngineError
  | outOfFuel : EngineError
deriving DecidableEq, Repr

/-- State of the depth-first traversal in compileExecutionOrder: the
output being accumulated and the two marking sets (kept as lists). -/
structure CompileState where
  executionOrder : List String
  visited : List String
  visiting : List String

mutual

/-- The inner recursive function visit of compileExecutionOrder: throw on
an in-progress node, skip a done node, otherwise mark in-progress, visit
each declared dependency, then mark done and append to the order. -/
def visit (t : Template) : Nat → String → CompileState → Except EngineError CompileState
  | 0, _, _ => .error .outOfFuel
  | fuel + 1, cellName, s =>
    if cellName ∈ s.visiting then
      .error (.circular cellName)
    else if cellName ∈ s.visited then
      .ok s
    else
      match lookupCell t cellName with
      | none => .error .typeError
      | some cellDef =>
        match visitDeps t fuel cellDef.currRowDependencies
            { s with visiting := cellName :: s.visiting } with
        | .error e => .error e
        | .ok s2 =>
          .ok { executionOrder := s2.executionOrder ++ [cellName]
                visited := cellName :: s2.visited
                visiting := s2.visiting.erase cellName }
termination_by fuel _ _ => (fuel, 0)

/-- The for-loop of visit over a cell's declared dependencies. -/
def visitDeps (t : Template) : Nat → List String → CompileState → Except EngineError CompileState
  | _, [], s => .ok s
  | fuel, d :: ds, s =>
    match visit t fuel d s with
    | .error e => .error e
    | .ok s2 => visitDeps t fuel ds s2
termination_by fuel ds _ => (fuel, ds.length + 1)

end

/-- The top-level loop of compileExecutionOrder over the schema entries:
start a traversal from each column not already done. -/
def compileRoots (t : Template) : List CellSchema → CompileState → Except EngineError CompileState
  | [], s => .ok s
  | cell :: rest, s =>
    if cell.name ∈ s.visited then
      compileRoots t rest s
    else
      match visit t (t.length + 1) cell.name s with
      | .error e => .error e
      | .ok s2 => compileRoots t rest s2

/-- compileExecutionOrder from the source: depth-first post-order
traversal started from each schema column in declared order.  Both source
variants define this function with textually identical bodies, so this
single embedding serves both. -/
def compileExecutionOrder (template : Template) (cellSchema : List CellSchema) :
    Except EngineError (List String) :=
  (compileRoots template cellSchema ⟨[], [], []⟩).map (fun s => s.executionOrder)

/-- Names declared by a schema, in declared order. -/
def schemaNames (s : List CellSchema) : List String := s.map (fun c => c.name)

/-- Mutable state of one evaluateRow call: the row under construction plus
the other two pieces of caller state the source function can see (the
previous row and the inputs), passed explicitly so that the absence of
writes to them is a provable fact rather than an assumption of the
embedding. -/
structure EvalState where
  rowState : RowState
  prevRowState : Option RowState
  inputs : Inputs

/-- The loop of evaluateRow over the execution order: look the cell up in
the template, run its formula on the context (prevRow, currRow, inputs),
and assign the result into the current row.  The only assignment in the
source body is rowState[cellName] = result. -/
def evalCellsS (t : Template) : List String → EvalState → Except EngineError EvalState
  | [], st => .ok st
  | cellName :: rest, st =>
    match lookupCell t cellName with
    | none => .error .typeError
    | some cellDef =>
      let context : FormulaContext :=
        { prevRow := st.prevRowState, currRow := st.rowState, inputs := st.inputs }
      let result := cellDef.formula context
      evalCellsS t rest { st with rowState := setCell st.rowState cellName result }

/-- evaluateRow from the source: walk the execution order once, building
the row in place; returns the finished row (the source mutates its
rowState argument and returns void). -/
def evaluateRow (t : Template) (executionOrder : List String) (rowState : RowState)
    (prevRowState : Option RowState) (inputs : Inputs) : Except EngineError RowState :=
  (evalCellsS t executionOrder ⟨rowState, prevRowState, inputs⟩).map (fun st => st.rowState)

/-- The row loop of processRows: each iteration evaluates a fresh row
against the previous one and pushes it onto the output. -/
def processLoop (t : Template) (executionOrder : List String) (inputs : Inputs) :
    Nat → Option RowState → Except EngineError (List RowState)
  | 0, _ => .ok []
  | n + 1, prevRowState =>
    match evaluateRow t executionOrder emptyRowState prevRowState inputs with
    | .error e => .error e
    | .ok row =>
      match processLoop t executionOrder inputs n (some row) with
      | .error e => .error e
      | .ok rows => .ok (row :: rows)

/-- processRows from the source: compile the execution order once, then
produce numRows rows, threading each finished row into the next iteration
as the previous row (null for the first row). -/
def processRows (cellSchema : List CellSchema) (template : Template) (inputs : Inputs)
    (numRows : Nat) : Except EngineError (List RowState) :=
  match compileExecutionOrder template cellSchema with
  | .error e => .error e
  | .ok executionOrder => processLoop template executionOrder inputs numRows none

namespace EngineTs

/-- The evaluateRow loop of the second source variant; identical to the
primary one except that the assignment stores an object wrapping the
result, rowState[cellName] = an object with field evaluatedValue holding
result. -/
def evalCellsS (t : Template) : List String → EvalState → Except EngineError EvalState
  | [], st => .ok st
  | cellName :: rest, st =>
    match lookupCell t cellName with
    | none => .error .typeError
    | some cellDef =>
      let context : FormulaContext :=
        { prevRow := st.prevRowState, currRow := st.rowState, inputs := st.inputs }
      let result := cellDef.formula context
      evalCellsS t rest { st with rowState := setCell st.rowState cellName (.wrapped result) }

/-- evaluateRow of the second variant. -/
def evaluateRow (t : Template) (executionOrder : List String) (rowState : RowState)
    (prevRowState : Option RowState) (inputs : Inputs) : Except EngineError RowState :=
  (EngineTs.evalCellsS t executionOrder ⟨rowState, prevRowState, inputs⟩).map (fun st => st.rowState)

/-- The row loop of the second variant's processRows. -/
def processLoop (t : Template) (executionOrder : List String) (inputs : Inputs) :
    Nat → Option RowState → Except EngineError (List RowState)
  | 0, _ => .ok []
  | n + 1, prevRowState =>
    match EngineTs.evaluateRow t executionOrder emptyRowState prevRowState inputs with
    | .error e => .error e
    | .ok row =>
      match EngineTs.processLoop t executionOrder inputs n (some row) with
      | .error e => .error e
      | .ok rows => .ok (row :: rows)

/-- processRows of the second variant; its compileExecutionOrder is
textually identical to the primary variant's, so the shared embedding is
used. -/
def processRows (cellSchema : List CellSchema) (template : Template) (inputs : Inputs)
    (numRows : Nat) : Except EngineError (List RowState) :=
  match compileExecutionOrder template cellSchema with
  | .error e => .error e
  | .ok executionOrder => EngineTs.processLoop template executionOrder inputs numRows none

end EngineTs

/-- Schema of Scenario A: two number columns a and b. -/
def schemaA : List CellSchema := [⟨"a", .number⟩, ⟨"b", .number⟩]

/-- Template of Scenario A: b counts up from inputs.initialValue across
rows, a copies the current row's b and declares the dependency on b. -/
def templateA : Template :=
  [("a",
    { type := .number
      formula := fun ctx => (ctx.currRow "b").getD (.num 0)
      currRowDependencies := ["b"] }),
   ("b",
    { type := .number
      formula := fun ctx =>
        match ctx.prevRow with
        | some prev =>
          match prev "b" with
          | some (.num n) => .num (n + 1)
          | _ => .num 0
        | none => ctx.inputs "initialValue"
      currRowDependencies := [] })]

/-- Inputs of Scenario A: initialValue is 5. -/
def inputsA : Inputs := fun name => if name = "initialValue" then .num 5 else .num 0

/-- The row of Scenario A whose two columns both hold n. -/
def rowAB (n : Int) : RowState := setCell (setCell emptyRowState "b" (.num n)) "a" (.num n)

/-- Schema of the cyclic scenario: one number column a. -/
def schemaCyc : List CellSchema := [⟨"a", .number⟩]

/-- Template with a self-dependency: column a declares a dependency on
itself. -/
def templateCyc : Template :=
  [("a",
    { type := .number
      formula := fun ctx => (ctx.currRow "a").getD (.num 0)
      currRowDependencies := ["a"] })]

/-- Single-column schema used by small instances. -/
def schemaX : List CellSchema := [⟨"x", .number⟩]

/-- Single-column template whose formula is the constant 1 and has no
dependencies. -/
def templateX : Template :=
  [("x",
    { type := .number
      formula := fun _ => .num 1
      currRowDependencies := [] })]

/-- Inputs record with every name bound to 0; the constant templates never
read it. -/
def inputsZero : Inputs := fun _ => .num 0

/-- Same-row dependency edge: column c declares a dependency on column d. -/
def DepStep (t : Template) (c d : String) : Prop := d ∈ depsOf t c

/-- A successful lookup corresponds to a binding of the template. -/
theorem lookupCell_mem {t : Template} {c : String} {cd : CellDef}
    (h : lookupCell t c = some cd) : (c, cd) ∈ t := by
  induction t with
  | nil => simp [lookupCell] at h
  | cons p rest ih =>
    obtain ⟨k, d⟩ := p
    by_cases hc : c = k
    · subst hc
      simp [lookupCell] at h
      simp [h]
    · simp [lookupCell, hc] at h
      exact List.mem_cons_of_mem _ (ih h)

/-- A successful lookup means the name is a template key. -/
theorem lookupCell_mem_keys {t : Template} {c : String} {cd : CellDef}
    (h : lookupCell t c = some cd) : c ∈ templateKeys t := by
  have := lookupCell_mem h
  simpa [templateKeys] using List.mem_map_of_mem (fun p => p.1) this

/-- Every template key has a successful lookup. -/
theorem lookup_of_mem_keys {t : Template} {c : String}
    (h : c ∈ templateKeys t) : ∃ cd, lookupCell t c = some cd := by
  induction t with
  | nil => simp [templateKeys] at h
  | cons p rest ih =>
    obtain ⟨k, d⟩ := p
    by_cases hc : c = k
    · exact ⟨d, by simp [lookupCell, hc]⟩
    · simp [templateKeys, hc] at h
      simpa [lookupCell, hc] using ih (by simpa [templateKeys] using h)

/-- depsOf unfolds on a successful lookup. -/
theorem depsOf_eq {t : Template} {c : String} {cd : CellDef}
    (h : lookupCell t c = some cd) : depsOf t c = cd.currRowDependencies := by
  simp [depsOf, h]

/-- A dependency edge out of c certifies that c has a template entry whose
dependency list contains the target. -/
theorem depStep_lookup {t : Template} {c d : String} (h : DepStep t c d) :
    ∃ cd, lookupCell t c = some cd ∧ d ∈ cd.currRowDependencies := by
  unfold DepStep depsOf at h
  cases hl : lookupCell t c with
  | none => rw [hl] at h; simp at h
  | some cd => rw [hl] at h; simp at h; exact ⟨cd, rfl, h⟩

/-- Invariant of the traversal state maintained by visit. -/
structure TraversalInv (t : Template) (s : CompileState) : Prop where
  nodupOrder : s.executionOrder.Nodup
  visited_iff : ∀ c, c ∈ s.visited ↔ c ∈ s.executionOrder
  orderSorted : ∀ c ∈ s.executionOrder, ∀ d ∈ depsOf t c, [d, c].Sublist s.executionOrder
  visiting_not_visited : ∀ v ∈ s.visiting, v ∉ s.visited
  nodupVisiting : s.visiting.Nodup
  visitingKeys : ∀ v ∈ s.visiting, v ∈ templateKeys t
  orderKeys : ∀ c ∈ s.executionOrder, c ∈ templateKeys t

/-- What a successful visit of one cell guarantees. -/
structure VisitOk (t : Template) (c : String) (s s2 : CompileState) : Prop where
  inv : TraversalInv t s2
  visiting_eq : s2.visiting = s.visiting
  target_visited : c ∈ s2.visited
  visited_mono : ∀ x ∈ s.visited, x ∈ s2.visited
  order_extend : ∃ tail, s2.executionOrder = s.executionOrder ++ tail
  new_reachable : ∀ x ∈ s2.visited, x ∈ s.visited ∨ Relation.ReflTransGen (DepStep t) c x

/-- What a successful dependency sweep guarantees. -/
structure DepsOk (t : Template) (ds : List String) (s s2 : CompileState) : Prop where
  inv : TraversalInv t s2
  visiting_eq : s2.visiting = s.visiting
  deps_visited : ∀ d ∈ ds, d ∈ s2.visited
  visited_mono : ∀ x ∈ s.visited, x ∈ s2.visited
  order_extend : ∃ tail, s2.executionOrder = s.executionOrder ++ tail
  new_reachable : ∀ x ∈ s2.visited,
    x ∈ s.visited ∨ ∃ d ∈ ds, Relation.ReflTransGen (DepStep t) d x

/-- Preservation along a dependency sweep, assuming preservation for each
single visit at the same fuel. -/
theorem visitDeps_ok_spec (t : Template) (fuel : Nat)
    (H : ∀ c s s2, TraversalInv t s → visit t fuel c s = .ok s2 → VisitOk t c s s2) :
    ∀ ds s s2, TraversalInv t s → visitDeps t fuel ds s = .ok s2 → DepsOk t ds s s2 := by
  intro ds
  induction ds with
  | nil =>
    intro s s2 hinv h
    simp only [visitDeps] at h
    cases h
    exact ⟨hinv, rfl, by simp, fun x hx => hx, ⟨[], by simp⟩, fun x hx => Or.inl hx⟩
  | cons d ds ih =>
    intro s s2 hinv h
    simp only [visitDeps] at h
    cases hv : visit t fuel d s with
    | error e => rw [hv] at h; simp at h
    | ok sm =>
      rw [hv] at h
      have Hd := H d s sm hinv hv
      have Hds := ih sm s2 Hd.inv h
      refine ⟨Hds.inv, ?_, ?_, ?_, ?_, ?_⟩
      · rw [Hds.visiting_eq, Hd.visiting_eq]
      · intro x hx
        rcases List.mem_cons.mp hx with hxd | hxds
        · subst hxd; exact Hds.visited_mono _ Hd.target_visited
        · exact Hds.deps_visited _ hxds
      · intro x hx
        exact Hds.visited_mono _ (Hd.visited_mono _ hx)
      · obtain ⟨t1, ht1⟩ := Hd.order_extend
        obtain ⟨t2, ht2⟩ := Hds.order_extend
        exact ⟨t1 ++ t2, by rw [ht2, ht1, List.append_assoc]⟩
      · intro x hx
        rcases Hds.new_reachable x hx with hxm | ⟨d2, hd2, hr⟩
        · rcases Hd.new_reachable x hxm with h1 | h1
          · exact Or.inl h1
          · exact Or.inr ⟨d, List.mem_cons_self d ds, h1⟩
        · exact Or.inr ⟨d2, List.mem_cons_of_mem _ hd2, hr⟩

/-- Preservation for a single visit: a successful call extends the order
with dependency-respecting entries, marks the target done, and restores
the in-progress set. -/
theorem visit_ok_spec (t : Template) :
    ∀ fuel c s s2, TraversalInv t s → visit t fuel c s = .ok s2 → VisitOk t c s s2 := by
  intro fuel
  induction fuel with
  | zero => intro c s s2 _ h; simp [visit] at h
  | succ fuel ih =>
    intro c s s2 hinv h
    simp only [visit] at h
    by_cases hvis : c ∈ s.visiting
    · rw [if_pos hvis] at h; simp at h
    · rw [if_neg hvis] at h
      by_cases hvtd : c ∈ s.visited
      · rw [if_pos hvtd] at h
        cases h
        exact ⟨hinv, rfl, hvtd, fun x hx => hx, ⟨[], by simp⟩, fun x hx => Or.inl hx⟩
      · rw [if_neg hvtd] at h
        cases hl : lookupCell t c with
        | none => simp [hl] at h
        | some cd =>
          simp only [hl] at h
          have hinv1 : TraversalInv t { s with visiting := c :: s.visiting } := by
            refine ⟨hinv.nodupOrder, hinv.visited_iff, hinv.orderSorted, ?_, ?_, ?_,
              hinv.orderKeys⟩
            · intro v hv
              rcases List.mem_cons.mp hv with rfl | hv2
              · exact hvtd
              · exact hinv.visiting_not_visited v hv2
            · exact List.nodup_cons.mpr ⟨hvis, hinv.nodupVisiting⟩
            · intro v hv
              rcases List.mem_cons.mp hv with rfl | hv2
              · exact lookupCell_mem_keys hl
              · exact hinv.visitingKeys v hv2
          cases hd : visitDeps t fuel cd.currRowDependencies
              { s with visiting := c :: s.visiting } with
          | error e => simp [hd] at h
          | ok sd =>
            simp only [hd] at h
            cases h
            have Hdeps := visitDeps_ok_spec t fuel ih cd.currRowDependencies _ sd hinv1 hd
            have hvche : sd.visiting = c :: s.visiting := Hdeps.visiting_eq
            have hcnotvtd : c ∉ sd.visited :=
              Hdeps.inv.visiting_not_visited c (by rw [hvche]; exact List.mem_cons_self _ _)
            have hcnotord : c ∉ sd.executionOrder :=
              fun hmem => hcnotvtd ((Hdeps.inv.visited_iff c).mpr hmem)
            have herase : sd.visiting.erase c = s.visiting := by
              rw [hvche]; exact List.erase_cons_head c s.visiting
            have hdeps_eq : depsOf t c = cd.currRowDependencies := depsOf_eq hl
            refine ⟨⟨?_, ?_, ?_, ?_, ?_, ?_, ?_⟩, ?_, ?_, ?_, ?_, ?_⟩
            · exact List.nodup_append.mpr ⟨Hdeps.inv.nodupOrder, List.nodup_singleton c,
                fun a ha hac => hcnotord (by rwa [List.mem_singleton.mp hac] at ha)⟩
            · intro x
              constructor
              · intro hx
                rcases List.mem_cons.mp hx with rfl | hx2
                · exact List.mem_append.mpr (Or.inr (List.mem_singleton.mpr rfl))
                · exact List.mem_append.mpr
                    (Or.inl ((Hdeps.inv.visited_iff x).mp hx2))
              · intro hx
                rcases List.mem_append.mp hx with hx2 | hx2
                · exact List.mem_cons_of_mem _ ((Hdeps.inv.visited_iff x).mpr hx2)
                · rw [List.mem_singleton.mp hx2]; exact List.mem_cons_self _ _
            · intro x hx d hdx
              rcases List.mem_append.mp hx with hx2 | hx2
              · exact (Hdeps.inv.orderSorted x hx2 d hdx).trans
                  (List.sublist_append_left _ _)
              · rw [List.mem_singleton.mp hx2] at hdx ⊢
                rw [hdeps_eq] at hdx
                have hdv : d ∈ sd.visited := Hdeps.deps_visited d hdx
                have hdord : d ∈ sd.executionOrder := (Hdeps.inv.visited_iff d).mp hdv
                exact List.Sublist.append (List.singleton_sublist.mpr hdord)
                  (List.Sublist.refl [c])
            · intro v hv
              rw [herase] at hv
              intro hmem
              rcases List.mem_cons.mp hmem with rfl | hmem2
              · exact hvis hv
              · exact Hdeps.inv.visiting_not_visited v
                  (by rw [hvche]; exact List.mem_cons_of_mem _ hv) hmem2
            · rw [herase]; exact hinv.nodupVisiting
            · intro v hv; rw [herase] at hv; exact hinv.visitingKeys v hv
            · intro x hx
              rcases List.mem_append.mp hx with hx2 | hx2
              · exact Hdeps.inv.orderKeys x hx2
              · rw [List.mem_singleton.mp hx2]; exact lookupCell_mem_keys hl
            · exact herase
            · exact List.mem_cons_self _ _
            · intro x hx
              exact List.mem_cons_of_mem _ (Hdeps.visited_mono x hx)
            · obtain ⟨t1, ht1⟩ := Hdeps.order_extend
              exact ⟨t1 ++ [c], by rw [ht1, List.append_assoc]⟩
            · intro x hx
              rcases List.mem_cons.mp hx with rfl | hx2
              · exact Or.inr Relation.ReflTransGen.refl
              · rcases Hdeps.new_reachable x hx2 with h1 | ⟨d2, hd2, hr⟩
                · exact Or.inl h1
                · refine Or.inr (Relation.ReflTransGen.head ?_ hr)
                  unfold DepStep
                  rw [hdeps_eq]
                  exact hd2

/-- schemaNames distributes over cons. -/
theorem schemaNames_cons (cell : CellSchema) (rest : List CellSchema) :
    schemaNames (cell :: rest) = cell.name :: schemaNames rest := rfl

/-- What a successful top-level sweep over the schema roots guarantees. -/
structure RootsOk (t : Template) (cells : List CellSchema) (s s2 : CompileState) : Prop where
  inv : TraversalInv t s2
  visiting_eq : s2.visiting = s.visiting
  roots_visited : ∀ cell ∈ cells, cell.name ∈ s2.visited
  visited_mono : ∀ x ∈ s.visited, x ∈ s2.visited
  new_reachable : ∀ x ∈ s2.visited,
    x ∈ s.visited ∨ ∃ r ∈ schemaNames cells, Relation.ReflTransGen (DepStep t) r x

/-- Preservation for the top-level sweep of compileExecutionOrder. -/
theorem compileRoots_ok_spec (t : Template) :
    ∀ cells s s2, TraversalInv t s → compileRoots t cells s = .ok s2 →
      RootsOk t cells s s2 := by
  intro cells
  induction cells with
  | nil =>
    intro s s2 hinv h
    simp only [compileRoots] at h
    cases h
    exact ⟨hinv, rfl, by simp, fun x hx => hx, fun x hx => Or.inl hx⟩
  | cons cell rest ih =>
    intro s s2 hinv h
    simp only [compileRoots] at h
    by_cases hv : cell.name ∈ s.visited
    · rw [if_pos hv] at h
      have H := ih s s2 hinv h
      refine ⟨H.inv, H.visiting_eq, ?_, H.visited_mono, ?_⟩
      · intro c hc
        rcases List.mem_cons.mp hc with rfl | hc2
        · exact H.visited_mono _ hv
        · exact H.roots_visited _ hc2
      · intro x hx
        rcases H.new_reachable x hx with h1 | ⟨r, hr, hrt⟩
        · exact Or.inl h1
        · exact Or.inr ⟨r, by rw [schemaNames_cons]; exact List.mem_cons_of_mem _ hr, hrt⟩
    · rw [if_neg hv] at h
      cases hvst : visit t (t.length + 1) cell.name s with
      | error e => simp [hvst] at h
      | ok sm =>
        simp only [hvst] at h
        have Hv := visit_ok_spec t _ _ _ _ hinv hvst
        have H := ih sm s2 Hv.inv h
        refine ⟨H.inv, by rw [H.visiting_eq, Hv.visiting_eq], ?_, ?_, ?_⟩
        · intro c hc
          rcases List.mem_cons.mp hc with rfl | hc2
          · exact H.visited_mono _ Hv.target_visited
          · exact H.roots_visited _ hc2
        · intro x hx
          exact H.visited_mono _ (Hv.visited_mono _ hx)
        · intro x hx
          rcases H.new_reachable x hx with h1 | ⟨r, hr, hrt⟩
          · rcases Hv.new_reachable x h1 with h2 | h2
            · exact Or.inl h2
            · exact Or.inr ⟨cell.name,
                by rw [schemaNames_cons]; exact List.mem_cons_self _ _, h2⟩
          · exact Or.inr ⟨r, by rw [schemaNames_cons]; exact List.mem_cons_of_mem _ hr, hrt⟩

/-- The invariant holds for the empty starting state. -/
theorem initial_inv (t : Template) : TraversalInv t ⟨[], [], []⟩ :=
  ⟨List.nodup_nil, by simp, by simp, by simp, List.nodup_nil, by simp, by simp⟩

/-- A successful compile run comes from a successful root sweep delivering
the returned order. -/
theorem compile_ok_state {t : Template} {sch : List CellSchema} {order : List String}
    (h : compileExecutionOrder t sch = .ok order) :
    ∃ st, compileRoots t sch ⟨[], [], []⟩ = .ok st ∧ st.executionOrder = order ∧
      RootsOk t sch ⟨[], [], []⟩ st := by
  unfold compileExecutionOrder at h
  cases hr : compileRoots t sch ⟨[], [], []⟩ with
  | error e => rw [hr] at h; simp [Except.map] at h
  | ok st =>
    rw [hr] at h
    simp only [Except.map] at h
    cases h
    exact ⟨st, rfl, rfl, compileRoots_ok_spec t sch _ st (initial_inv t) hr⟩

/-- The zero-based index of a cell name in an execution order. -/
def indexIn : List String → String → Nat
  | [], _ => 0
  | x :: rest, c => if x = c then 0 else indexIn rest c + 1

/-- indexIn at the head. -/
theorem indexIn_cons_self (c : String) (l : List String) : indexIn (c :: l) c = 0 := by
  simp [indexIn]

/-- indexIn steps over a different head. -/
theorem indexIn_cons_ne {x c : String} (l : List String) (h : x ≠ c) :
    indexIn (x :: l) c = indexIn l c + 1 := by
  simp [indexIn, h]

/-- In a duplicate-free list, a two-element sublist orders the indices. -/
theorem pair_sublist_indexIn_lt : ∀ (l : List String) (d c : String), l.Nodup →
    [d, c].Sublist l → indexIn l d < indexIn l c := by
  intro l
  induction l with
  | nil =>
    intro d c _ hs
    have := List.sublist_nil.mp hs
    simp at this
  | cons x xs ih =>
    intro d c hnd hs
    cases hs with
    | cons a hs2 =>
      have hd : d ∈ xs := hs2.subset (by simp)
      have hc : c ∈ xs := hs2.subset (by simp)
      have hxd : x ≠ d := fun e => (List.nodup_cons.mp hnd).1 (e ▸ hd)
      have hxc : x ≠ c := fun e => (List.nodup_cons.mp hnd).1 (e ▸ hc)
      rw [indexIn_cons_ne _ hxd, indexIn_cons_ne _ hxc]
      exact Nat.succ_lt_succ (ih d c (List.nodup_cons.mp hnd).2 hs2)
    | cons₂ a hs2 =>
      have hc : c ∈ xs := hs2.subset (by simp)
      have hdc : x ≠ c := fun e => (List.nodup_cons.mp hnd).1 (e ▸ hc)
      rw [indexIn_cons_self, indexIn_cons_ne _ hdc]
      exact Nat.succ_pos _

/-- A duplicate-free list contained in another list is no longer than it. -/
theorem nodup_subset_length {l l2 : List String} (h : l.Nodup)
    (hsub : ∀ x ∈ l, x ∈ l2) : l.length ≤ l2.length := by
  have h1 : l.toFinset.card = l.length := List.toFinset_card_of_nodup h
  have h2 : l.toFinset ⊆ l2.toFinset := by
    intro x hx
    rw [List.mem_toFinset] at hx ⊢
    exact hsub x hx
  calc l.length = l.toFinset.card := h1.symm
    _ ≤ l2.toFinset.card := Finset.card_le_card h2
    _ ≤ l2.length := l2.toFinset_card_le

/-- The template key list has as many entries as the template. -/
theorem templateKeys_length (t : Template) : (templateKeys t).length = t.length :=
  List.length_map t _

/-- Pushing an unmarked key onto the in-progress stack preserves the
invariant. -/
theorem push_inv {t : Template} {s : CompileState} {c : String} {cd : CellDef}
    (hinv : TraversalInv t s) (hvis : c ∉ s.visiting) (hvtd : c ∉ s.visited)
    (hl : lookupCell t c = some cd) :
    TraversalInv t { s with visiting := c :: s.visiting } := by
  refine ⟨hinv.nodupOrder, hinv.visited_iff, hinv.orderSorted, ?_, ?_, ?_, hinv.orderKeys⟩
  · intro v hv
    rcases List.mem_cons.mp hv with rfl | hv2
    · exact hvtd
    · exact hinv.visiting_not_visited v hv2
  · exact List.nodup_cons.mpr ⟨hvis, hinv.nodupVisiting⟩
  · intro v hv
    rcases List.mem_cons.mp hv with rfl | hv2
    · exact lookupCell_mem_keys hl
    · exact hinv.visitingKeys v hv2

/-- Totality of a dependency sweep, given totality of single visits at the
same fuel: it either succeeds or raises a circular error naming a column
that lies on a dependency cycle (and satisfies any dependency-closed
predicate R holding of the sweep's targets). -/
theorem visitDeps_total (t : Template) (R : String → Prop)
    (fuel : Nat)
    (H : ∀ c s, TraversalInv t s → c ∈ templateKeys t → R c →
      t.length < fuel + s.visiting.length →
      (∀ v ∈ s.visiting, Relation.TransGen (DepStep t) v c) →
      (∃ s2, visit t fuel c s = .ok s2) ∨
        (∃ x, visit t fuel c s = .error (.circular x) ∧ R x ∧
          Relation.TransGen (DepStep t) x x)) :
    ∀ ds s, TraversalInv t s → (∀ d ∈ ds, d ∈ templateKeys t) → (∀ d ∈ ds, R d) →
      t.length < fuel + s.visiting.length →
      (∀ d ∈ ds, ∀ v ∈ s.visiting, Relation.TransGen (DepStep t) v d) →
      (∃ s2, visitDeps t fuel ds s = .ok s2) ∨
        (∃ x, visitDeps t fuel ds s = .error (.circular x) ∧ R x ∧
          Relation.TransGen (DepStep t) x x) := by
  intro ds
  induction ds with
  | nil =>
    intro s _ _ _ _ _
    exact Or.inl ⟨s, by simp [visitDeps]⟩
  | cons d ds ih =>
    intro s hinv hkeys hR hfuel hpath
    rcases H d s hinv (hkeys d (List.mem_cons_self _ _)) (hR d (List.mem_cons_self _ _))
        hfuel (hpath d (List.mem_cons_self _ _)) with ⟨sm, hvx⟩ | ⟨x, hvx, hRx, hcyc⟩
    · have Hok := visit_ok_spec t fuel d s sm hinv hvx
      have hvlen : sm.visiting.length = s.visiting.length := by rw [Hok.visiting_eq]
      rcases ih sm Hok.inv (fun d2 h2 => hkeys d2 (List.mem_cons_of_mem _ h2))
          (fun d2 h2 => hR d2 (List.mem_cons_of_mem _ h2)) (by rw [hvlen]; exact hfuel)
          (fun d2 h2 v hv => hpath d2 (List.mem_cons_of_mem _ h2) v
            (by rwa [Hok.visiting_eq] at hv)) with ⟨s2, h2⟩ | ⟨x, h2, hRx, hcyc⟩
      · exact Or.inl ⟨s2, by simp [visitDeps, hvx, h2]⟩
      · exact Or.inr ⟨x, by simp [visitDeps, hvx, h2], hRx, hcyc⟩
    · exact Or.inr ⟨x, by simp [visitDeps, hvx], hRx, hcyc⟩

/-- Totality of a single visit: for a well-formed template and enough fuel
it either succeeds or raises a circular error naming a column on a
dependency cycle. -/
theorem visit_total (t : Template) (R : String → Prop)
    (hRclosed : ∀ x y, R x → DepStep t x y → R y)
    (hwf : ∀ p ∈ t, ∀ d ∈ p.2.currRowDependencies, d ∈ templateKeys t) :
    ∀ fuel c s, TraversalInv t s → c ∈ templateKeys t → R c →
      t.length < fuel + s.visiting.length →
      (∀ v ∈ s.visiting, Relation.TransGen (DepStep t) v c) →
      (∃ s2, visit t fuel c s = .ok s2) ∨
        (∃ x, visit t fuel c s = .error (.circular x) ∧ R x ∧
          Relation.TransGen (DepStep t) x x) := by
  intro fuel
  induction fuel with
  | zero =>
    intro c s hinv _ _ hfuel _
    have hle : s.visiting.length ≤ t.length := by
      have := nodup_subset_length hinv.nodupVisiting hinv.visitingKeys
      rwa [templateKeys_length] at this
    omega
  | succ fuel ih =>
    intro c s hinv hck hRc hfuel hpath
    by_cases hvis : c ∈ s.visiting
    · exact Or.inr ⟨c, by simp [visit, hvis], hRc, hpath c hvis⟩
    · by_cases hvtd : c ∈ s.visited
      · exact Or.inl ⟨s, by simp [visit, hvis, hvtd]⟩
      · obtain ⟨cd, hl⟩ := lookup_of_mem_keys hck
        have hmemt : (c, cd) ∈ t := lookupCell_mem hl
        have hdeq : depsOf t c = cd.currRowDependencies := depsOf_eq hl
        have hinv1 := push_inv hinv hvis hvtd hl
        have hstep : ∀ d ∈ cd.currRowDependencies, DepStep t c d := by
          intro d hd
          unfold DepStep
          rw [hdeq]
          exact hd
        rcases visitDeps_total t R fuel ih cd.currRowDependencies
            { s with visiting := c :: s.visiting } hinv1
            (fun d hd => hwf (c, cd) hmemt d hd)
            (fun d hd => hRclosed c d hRc (hstep d hd))
            (by simp only [List.length_cons]; omega)
            (by
              intro d hd v hv
              rcases List.mem_cons.mp hv with rfl | hv2
              · exact Relation.TransGen.single (hstep d hd)
              · exact Relation.TransGen.tail (hpath v hv2) (hstep d hd))
          with ⟨sd, hdo⟩ | ⟨x, hdo, hRx, hcyc⟩
        · exact Or.inl ⟨⟨sd.executionOrder ++ [c], c :: sd.visited, sd.visiting.erase c⟩,
            by simp [visit, hvis, hvtd, hl, hdo]⟩
        · exact Or.inr ⟨x, by simp [visit, hvis, hvtd, hl, hdo], hRx, hcyc⟩

/-- Totality of the top-level sweep: with a well-formed template it either
succeeds or raises a circular error naming a column on a cycle. -/
theorem compileRoots_total (t : Template) (R : String → Prop)
    (hRclosed : ∀ x y, R x → DepStep t x y → R y)
    (hwf : ∀ p ∈ t, ∀ d ∈ p.2.currRowDependencies, d ∈ templateKeys t) :
    ∀ cells s, TraversalInv t s → s.visiting = [] →
      (∀ cell ∈ cells, cell.name ∈ templateKeys t) → (∀ cell ∈ cells, R cell.name) →
      (∃ s2, compileRoots t cells s = .ok s2) ∨
        (∃ x, compileRoots t cells s = .error (.circular x) ∧ R x ∧
          Relation.TransGen (DepStep t) x x) := by
  intro cells
  induction cells with
  | nil =>
    intro s _ _ _ _
    exact Or.inl ⟨s, by simp [compileRoots]⟩
  | cons cell rest ih =>
    intro s hinv hvnil hkeys hR
    by_cases hv : cell.name ∈ s.visited
    · rcases ih s hinv hvnil (fun c2 h2 => hkeys c2 (List.mem_cons_of_mem _ h2))
          (fun c2 h2 => hR c2 (List.mem_cons_of_mem _ h2)) with ⟨s2, h2⟩ | ⟨x, h2, hRx, hcyc⟩
      · exact Or.inl ⟨s2, by simp [compileRoots, hv, h2]⟩
      · exact Or.inr ⟨x, by simp [compileRoots, hv, h2], hRx, hcyc⟩
    · rcases visit_total t R hRclosed hwf (t.length + 1) cell.name s hinv
          (hkeys cell (List.mem_cons_self _ _)) (hR cell (List.mem_cons_self _ _))
          (by rw [hvnil]; simp) (by rw [hvnil]; simp) with ⟨sm, hvx⟩ | ⟨x, hvx, hRx, hcyc⟩
      · have Hok := visit_ok_spec t _ _ _ _ hinv hvx
        rcases ih sm Hok.inv (by rw [Hok.visiting_eq]; exact hvnil)
            (fun c2 h2 => hkeys c2 (List.mem_cons_of_mem _ h2))
            (fun c2 h2 => hR c2 (List.mem_cons_of_mem _ h2)) with ⟨s2, h2⟩ | ⟨x, h2, hRx, hcyc⟩
        · exact Or.inl ⟨s2, by simp [compileRoots, hv, hvx, h2]⟩
        · exact Or.inr ⟨x, by simp [compileRoots, hv, hvx, h2], hRx, hcyc⟩
      · exact Or.inr ⟨x, by simp [compileRoots, hv, hvx], hRx, hcyc⟩

/-- A column reachable from some schema root. -/
def ReachableFromSchema (t : Template) (sch : List CellSchema) (x : String) : Prop :=
  ∃ r ∈ schemaNames sch, Relation.ReflTransGen (DepStep t) r x

/-- Totality of compileExecutionOrder: with a well-formed template whose
schema names all have entries, it returns an order or raises a circular
error naming a column that is reachable from a schema root and lies on a
dependency cycle. -/
theorem compile_total {t : Template} {sch : List CellSchema}
    (hwf : ∀ p ∈ t, ∀ d ∈ p.2.currRowDependencies, d ∈ templateKeys t)
    (hroots : ∀ n ∈ schemaNames sch, n ∈ templateKeys t) :
    (∃ order, compileExecutionOrder t sch = .ok order) ∨
      (∃ x, compileExecutionOrder t sch = .error (.circular x) ∧
        ReachableFromSchema t sch x ∧ Relation.TransGen (DepStep t) x x) := by
  have hRclosed : ∀ x y, ReachableFromSchema t sch x → DepStep t x y →
      ReachableFromSchema t sch y := by
    intro x y ⟨r, hr, hrt⟩ hstep
    exact ⟨r, hr, hrt.tail hstep⟩
  rcases compileRoots_total t (ReachableFromSchema t sch) hRclosed hwf sch ⟨[], [], []⟩
      (initial_inv t) rfl
      (fun cell hc => hroots cell.name (List.mem_map_of_mem _ hc))
      (fun cell hc =>
        ⟨cell.name, List.mem_map_of_mem _ hc, Relation.ReflTransGen.refl⟩)
    with ⟨s2, h2⟩ | ⟨x, h2, hRx, hcyc⟩
  · exact Or.inl ⟨s2.executionOrder, by simp [compileExecutionOrder, h2, Except.map]⟩
  · exact Or.inr ⟨x, by simp [compileExecutionOrder, h2, Except.map], hRx, hcyc⟩

/-- Along a successful order, every dependency edge moves strictly down the
index. -/
theorem order_step {t : Template} {sch : List CellSchema} {order : List String}
    (h : compileExecutionOrder t sch = .ok order) :
    ∀ a ∈ order, ∀ b, DepStep t a b → b ∈ order ∧ indexIn order b < indexIn order a := by
  obtain ⟨st, _, horder, H⟩ := compile_ok_state h
  intro a ha b hstep
  have hsub : [b, a].Sublist order := by
    rw [← horder] at ha ⊢
    exact H.inv.orderSorted a ha b hstep
  have hnd : order.Nodup := by rw [← horder]; exact H.inv.nodupOrder
  exact ⟨hsub.subset (by simp), pair_sublist_indexIn_lt order b a hnd hsub⟩

/-- Any column reachable from a member of a successful order is itself in
the order. -/
theorem order_reach {t : Template} {sch : List CellSchema} {order : List String}
    (h : compileExecutionOrder t sch = .ok order) :
    ∀ r x, Relation.ReflTransGen (DepStep t) r x → r ∈ order → x ∈ order := by
  intro r x hrt
  induction hrt with
  | refl => exact fun hr => hr
  | tail _ hstep ih =>
    intro hr
    exact (order_step h _ (ih hr) _ hstep).1

/-- A successful order admits no member on a dependency cycle. -/
theorem order_no_cycle {t : Template} {sch : List CellSchema} {order : List String}
    (h : compileExecutionOrder t sch = .ok order) :
    ∀ c ∈ order, ¬ Relation.TransGen (DepStep t) c c := by
  have haux : ∀ a b, Relation.TransGen (DepStep t) a b → a ∈ order →
      b ∈ order ∧ indexIn order b < indexIn order a := by
    intro a b htg
    induction htg with
    | single hstep => exact fun ha => order_step h _ ha _ hstep
    | tail _ hstep ih =>
      intro ha
      obtain ⟨hmem, hlt⟩ := ih ha
      obtain ⟨hmem2, hlt2⟩ := order_step h _ hmem _ hstep
      exact ⟨hmem2, hlt2.trans hlt⟩
  intro c hc hcyc
  have := (haux c c hcyc hc).2
  omega

/-- Schema roots always appear in a successful order. -/
theorem order_roots {t : Template} {sch : List CellSchema} {order : List String}
    (h : compileExecutionOrder t sch = .ok order) :
    ∀ n ∈ schemaNames sch, n ∈ order := by
  obtain ⟨st, _, horder, H⟩ := compile_ok_state h
  intro n hn
  obtain ⟨cell, hc, rfl⟩ := List.mem_map.mp hn
  rw [← horder]
  exact (H.inv.visited_iff _).mp (H.roots_visited cell hc)

/-- If compile succeeds, no cycle is reachable from any schema root. -/
theorem compile_ok_no_cycle {t : Template} {sch : List CellSchema} {order : List String}
    (h : compileExecutionOrder t sch = .ok order) :
    ¬ ∃ c, ReachableFromSchema t sch c ∧ Relation.TransGen (DepStep t) c c := by
  rintro ⟨c, ⟨r, hr, hrt⟩, hcyc⟩
  exact order_no_cycle h c (order_reach h r c hrt (order_roots h r hr)) hcyc

/-- With a well-formed template, a cycle reachable from a schema root makes
compileExecutionOrder raise a circular error naming a column on a cycle. -/
theorem compile_cyclic_error {t : Template} {sch : List CellSchema}
    (hwf : ∀ p ∈ t, ∀ d ∈ p.2.currRowDependencies, d ∈ templateKeys t)
    (hroots : ∀ n ∈ schemaNames sch, n ∈ templateKeys t)
    (hcyc : ∃ c, ReachableFromSchema t sch c ∧ Relation.TransGen (DepStep t) c c) :
    ∃ x, compileExecutionOrder t sch = .error (.circular x) ∧
      Relation.TransGen (DepStep t) x x := by
  rcases compile_total hwf hroots with ⟨order, hok⟩ | ⟨x, herr, _, hxcyc⟩
  · exact absurd hcyc (compile_ok_no_cycle hok)
  · exact ⟨x, herr, hxcyc⟩

/-- With a well-formed template, an acyclic dependency graph (no cycle
reachable from any schema root) makes compileExecutionOrder succeed. -/
theorem compile_acyclic_ok {t : Template} {sch : List CellSchema}
    (hwf : ∀ p ∈ t, ∀ d ∈ p.2.currRowDependencies, d ∈ templateKeys t)
    (hroots : ∀ n ∈ schemaNames sch, n ∈ templateKeys t)
    (hacyc : ¬ ∃ c, ReachableFromSchema t sch c ∧ Relation.TransGen (DepStep t) c c) :
    ∃ order, compileExecutionOrder t sch = .ok order := by
  rcases compile_total hwf hroots with ⟨order, hok⟩ | ⟨x, _, hRx, hxcyc⟩
  · exact ⟨order, hok⟩
  · exact absurd ⟨x, hRx, hxcyc⟩ hacyc

/-- The evaluation loop writes only the row under construction: the
previous-row field and the inputs field of the state survive unchanged. -/
theorem evalCellsS_frame (t : Template) :
    ∀ (order : List String) (st st2 : EvalState), evalCellsS t order st = .ok st2 →
      st2.prevRowState = st.prevRowState ∧ st2.inputs = st.inputs := by
  intro order
  induction order with
  | nil =>
    intro st st2 h
    simp only [evalCellsS] at h
    cases h
    exact ⟨rfl, rfl⟩
  | cons c rest ih =>
    intro st st2 h
    simp only [evalCellsS] at h
    cases hl : lookupCell t c with
    | none => simp [hl] at h
    | some cd =>
      simp only [hl] at h
      have hres := ih _ st2 h
      exact hres

/-- The evaluation loop succeeds whenever every cell of the order has a
template entry. -/
theorem evalCellsS_total (t : Template) :
    ∀ (order : List String) (st : EvalState), (∀ c ∈ order, c ∈ templateKeys t) →
      ∃ st2, evalCellsS t order st = .ok st2 := by
  intro order
  induction order with
  | nil => exact fun st _ => ⟨st, by simp [evalCellsS]⟩
  | cons c rest ih =>
    intro st hkeys
    obtain ⟨cd, hl⟩ := lookup_of_mem_keys (hkeys c (List.mem_cons_self _ _))
    obtain ⟨st2, h2⟩ := ih
      { st with rowState :=
          setCell st.rowState c (cd.formula
            { prevRow := st.prevRowState, currRow := st.rowState, inputs := st.inputs }) }
      (fun c2 hc2 => hkeys c2 (List.mem_cons_of_mem _ hc2))
    exact ⟨st2, by simp [evalCellsS, hl, h2]⟩

/-- evaluateRow succeeds whenever every cell of the order has a template
entry. -/
theorem evaluateRow_total (t : Template) (order : List String) (prev : Option RowState)
    (inputs : Inputs) (h : ∀ c ∈ order, c ∈ templateKeys t) :
    ∃ row, evaluateRow t order emptyRowState prev inputs = .ok row := by
  obtain ⟨st2, h2⟩ := evalCellsS_total t order ⟨emptyRowState, prev, inputs⟩ h
  exact ⟨st2.rowState, by simp [evaluateRow, h2, Except.map]⟩

/-- The row loop produces exactly as many rows as requested when every
cell of the order has a template entry. -/
theorem processLoop_total (t : Template) (order : List String) (inputs : Inputs)
    (hkeys : ∀ c ∈ order, c ∈ templateKeys t) :
    ∀ (n : Nat) (prev : Option RowState),
      ∃ rows, processLoop t order inputs n prev = .ok rows ∧ rows.length = n := by
  intro n
  induction n with
  | zero => exact fun prev => ⟨[], by simp [processLoop], rfl⟩
  | succ n ih =>
    intro prev
    obtain ⟨row, hrow⟩ := evaluateRow_total t order prev inputs hkeys
    obtain ⟨rows, hrows, hlen⟩ := ih (some row)
    exact ⟨row :: rows, by simp [processLoop, hrow, hrows], by simp [hlen]⟩

/-- The rows of a loop run are chained: each is produced by evaluateRow
from the previous one (the first from the given seed). -/
def Chained (t : Template) (order : List String) (inputs : Inputs) :
    Option RowState → List RowState → Prop
  | _, [] => True
  | prev, r :: rest =>
    evaluateRow t order emptyRowState prev inputs = .ok r ∧
      Chained t order inputs (some r) rest

/-- A successful loop run is chained. -/
theorem processLoop_chained (t : Template) (order : List String) (inputs : Inputs) :
    ∀ (n : Nat) (prev : Option RowState) (rows : List RowState),
      processLoop t order inputs n prev = .ok rows → Chained t order inputs prev rows := by
  intro n
  induction n with
  | zero =>
    intro prev rows h
    simp only [processLoop] at h
    cases h
    trivial
  | succ n ih =>
    intro prev rows h
    simp only [processLoop] at h
    cases hrow : evaluateRow t order emptyRowState prev inputs with
    | error e => simp [hrow] at h
    | ok row =>
      simp only [hrow] at h
      cases hrest : processLoop t order inputs n (some row) with
      | error e => simp [hrest] at h
      | ok rows2 =>
        simp only [hrest] at h
        cases h
        exact ⟨hrow, ih (some row) rows2 hrest⟩

/-- Chained rows satisfy the indexed previous-row equations. -/
theorem chained_get (t : Template) (order : List String) (inputs : Inputs) :
    ∀ (rows : List RowState) (prev : Option RowState), Chained t order inputs prev rows →
      (∀ h0 : 0 < rows.length,
        evaluateRow t order emptyRowState prev inputs = .ok (rows.get ⟨0, h0⟩)) ∧
      (∀ (i : Nat) (hi : i < rows.length) (hi1 : i + 1 < rows.length),
        evaluateRow t order emptyRowState (some (rows.get ⟨i, hi⟩)) inputs =
          .ok (rows.get ⟨i + 1, hi1⟩)) := by
  intro rows
  induction rows with
  | nil =>
    intro prev _
    constructor
    · intro h0; simp at h0
    · intro i hi; simp at hi
  | cons r rest ih =>
    intro prev hch
    obtain ⟨hr, hrest⟩ := hch
    have IH := ih (some r) hrest
    constructor
    · intro h0
      simpa using hr
    · intro i hi hi1
      match i with
      | 0 =>
        have h0 : 0 < rest.length := by simpa using hi1
        have := IH.1 h0
        simpa using this
      | Nat.succ j =>
        have hj : j < rest.length := by simpa using hi
        have hj1 : j + 1 < rest.length := by simpa using hi1
        have := IH.2 j hj hj1
        simpa using this

/-- Wrap every stored cell value of a row in an evaluatedValue object, the
shape the engine.ts variant stores. -/
def wrapRow (r : RowState) : RowState := fun k => (r k).map Value.wrapped

/-- Wrapping the empty row changes nothing. -/
theorem wrapRow_empty : wrapRow emptyRowState = emptyRowState := by
  funext k
  simp [wrapRow, emptyRowState]

/-- Wrapping commutes with a single cell assignment. -/
theorem wrapRow_setCell (r : RowState) (c : String) (v : Value) :
    wrapRow (setCell r c v) = setCell (wrapRow r) c (.wrapped v) := by
  funext k
  by_cases hk : k = c
  · simp [wrapRow, setCell, hk]
  · simp [wrapRow, setCell, hk]

/-- Wrap the row component of an evaluation state (and of the previous row
it carries). -/
def wrapState (st : EvalState) : EvalState :=
  ⟨wrapRow st.rowState, Option.map wrapRow st.prevRowState, st.inputs⟩

/-- The engine.ts evaluation loop simulates the primary one up to wrapping,
for formulas that do not distinguish wrapped from unwrapped contexts. -/
theorem engine_evalCellsS_rel (t : Template) (inp : Inputs)
    (hf : ∀ c cd, lookupCell t c = some cd → ∀ prev curr,
      cd.formula ⟨Option.map wrapRow prev, wrapRow curr, inp⟩ =
        cd.formula ⟨prev, curr, inp⟩) :
    ∀ (order : List String) (st : EvalState), st.inputs = inp →
      EngineTs.evalCellsS t order (wrapState st) =
        (evalCellsS t order st).map wrapState := by
  intro order
  induction order with
  | nil =>
    intro st _
    simp [EngineTs.evalCellsS, evalCellsS, Except.map]
  | cons c rest ih =>
    intro st hinp
    cases hl : lookupCell t c with
    | none => simp [EngineTs.evalCellsS, evalCellsS, hl, Except.map]
    | some cd =>
      have hres : cd.formula
          { prevRow := (wrapState st).prevRowState, currRow := (wrapState st).rowState,
            inputs := (wrapState st).inputs } =
          cd.formula
            { prevRow := st.prevRowState, currRow := st.rowState, inputs := st.inputs } := by
        show cd.formula ⟨Option.map wrapRow st.prevRowState, wrapRow st.rowState, st.inputs⟩ =
          cd.formula ⟨st.prevRowState, st.rowState, st.inputs⟩
        rw [hinp]
        exact hf c cd hl st.prevRowState st.rowState
      have hstep : ∀ v,
          ({ wrapState st with
              rowState := setCell (wrapState st).rowState c (.wrapped v) } : EvalState) =
            wrapState { st with rowState := setCell st.rowState c v } := by
        intro v
        show (⟨setCell (wrapRow st.rowState) c (.wrapped v),
            Option.map wrapRow st.prevRowState, st.inputs⟩ : EvalState) = _
        rw [← wrapRow_setCell]
        rfl
      simp only [EngineTs.evalCellsS, evalCellsS, hl, hres, hstep]
      exact ih _ hinp

/-- The engine.ts row loop simulates the primary one up to wrapping every
cell of every produced row. -/
theorem engine_processLoop_rel (t : Template) (order : List String) (inp : Inputs)
    (hf : ∀ c cd, lookupCell t c = some cd → ∀ prev curr,
      cd.formula ⟨Option.map wrapRow prev, wrapRow curr, inp⟩ =
        cd.formula ⟨prev, curr, inp⟩) :
    ∀ (n : Nat) (prev : Option RowState),
      EngineTs.processLoop t order inp n (Option.map wrapRow prev) =
        (processLoop t order inp n prev).map (List.map wrapRow) := by
  intro n
  induction n with
  | zero =>
    intro prev
    simp [EngineTs.processLoop, processLoop, Except.map]
  | succ n ih =>
    intro prev
    have hcells := engine_evalCellsS_rel t inp hf order ⟨emptyRowState, prev, inp⟩ rfl
    have hwse : wrapState ⟨emptyRowState, prev, inp⟩ =
        ⟨emptyRowState, Option.map wrapRow prev, inp⟩ := by
      show (⟨wrapRow emptyRowState, Option.map wrapRow prev, inp⟩ : EvalState) = _
      rw [wrapRow_empty]
    rw [hwse] at hcells
    cases hev : evalCellsS t order ⟨emptyRowState, prev, inp⟩ with
    | error e =>
      rw [hev] at hcells
      simp only [Except.map] at hcells
      have hrow : evaluateRow t order emptyRowState prev inp = .error e := by
        simp [evaluateRow, hev, Except.map]
      have hrowE : EngineTs.evaluateRow t order emptyRowState (Option.map wrapRow prev) inp =
          .error e := by
        simp [EngineTs.evaluateRow, hcells, Except.map]
      simp [EngineTs.processLoop, processLoop, hrow, hrowE, Except.map]
    | ok st2 =>
      rw [hev] at hcells
      simp only [Except.map] at hcells
      have hrow : evaluateRow t order emptyRowState prev inp = .ok st2.rowState := by
        simp [evaluateRow, hev, Except.map]
      have hrowE : EngineTs.evaluateRow t order emptyRowState (Option.map wrapRow prev) inp =
          .ok (wrapRow st2.rowState) := by
        simp [EngineTs.evaluateRow, hcells, Except.map, wrapState]
      have hih := ih (some st2.rowState)
      simp only [Option.map] at hih
      cases hloop : processLoop t order inp n (some st2.rowState) with
      | error e =>
        rw [hloop] at hih
        simp only [Except.map] at hih
        simp [EngineTs.processLoop, processLoop, hrow, hrowE, hih, hloop, Except.map]
      | ok rows =>
        rw [hloop] at hih
        simp only [Except.map] at hih
        simp [EngineTs.processLoop, processLoop, hrow, hrowE, hih, hloop, Except.map]

/-- C1: for every template and schema on which compileExecutionOrder
returns an order (exactly the acyclic well-formed ones), every declared
dependency of a schema column occurs at a strictly smaller index than the
column itself in the returned order. -/
theorem claim_C1_order_invariant {t : Template} {sch : List CellSchema}
    {order : List String} {c d : String}
    (h : compileExecutionOrder t sch = .ok order)
    (hc : c ∈ schemaNames sch) (hd : d ∈ depsOf t c) :
    d ∈ order ∧ c ∈ order ∧ indexIn order d < indexIn order c := by
  have hcord : c ∈ order := order_roots h c hc
  have hstep := order_step h c hcord d hd
  exact ⟨hstep.1, hcord, hstep.2⟩

/-- Witness for C1 on Scenario A: the compiled order is ["b", "a"] and the
dependency b of a sits strictly before a. -/
theorem claim_C1_witness :
    compileExecutionOrder templateA schemaA = .ok ["b", "a"] ∧
      ("b" ∈ ["b", "a"] ∧ "a" ∈ ["b", "a"] ∧
        indexIn ["b", "a"] "b" < indexIn ["b", "a"] "a") := by
  have hok : compileExecutionOrder templateA schemaA = .ok ["b", "a"] := by
    simp [compileExecutionOrder, compileRoots, visit, visitDeps, lookupCell, templateA,
      schemaA, Except.map]
  refine ⟨hok, claim_C1_order_invariant hok ?_ ?_⟩
  · simp [schemaNames, schemaA]
  · simp [depsOf, lookupCell, templateA]

/-- C2: compileExecutionOrder raises CircularDependency naming a column on
a cycle whenever the same-row dependency graph has a cycle reachable from
a schema column (self-dependencies included), and returns an order without
raising for every acyclic template; the error case returns no order.  The
template is assumed well-formed: every schema name and every declared
dependency has a template entry. -/
theorem claim_C2_cycle_detection {t : Template} {sch : List CellSchema}
    (hwf : ∀ p ∈ t, ∀ d ∈ p.2.currRowDependencies, d ∈ templateKeys t)
    (hroots : ∀ n ∈ schemaNames sch, n ∈ templateKeys t) :
    ((∃ c, ReachableFromSchema t sch c ∧ Relation.TransGen (DepStep t) c c) →
      ∃ x, compileExecutionOrder t sch = .error (.circular x) ∧
        Relation.TransGen (DepStep t) x x) ∧
    ((¬ ∃ c, ReachableFromSchema t sch c ∧ Relation.TransGen (DepStep t) c c) →
      ∃ order, compileExecutionOrder t sch = .ok order) :=
  ⟨compile_cyclic_error hwf hroots, compile_acyclic_ok hwf hroots⟩

/-- Witness for C2 on the self-cycle template: compilation raises a
circular error naming a column on a cycle. -/
theorem claim_C2_witness :
    ∃ x, compileExecutionOrder templateCyc schemaCyc = .error (.circular x) ∧
      Relation.TransGen (DepStep templateCyc) x x :=
  (claim_C2_cycle_detection (by decide) (by decide)).1
    ⟨"a", ⟨"a", by decide, Relation.ReflTransGen.refl⟩,
      Relation.TransGen.single (show "a" ∈ depsOf templateCyc "a" by decide)⟩

/-- C3: with total formulas, processRows returns exactly n rows whenever
compilation succeeds, and for a well-formed cyclic template it raises a
circular error (hence produces zero rows) for every n, including n = 0:
the compiler runs before any row is produced. -/
theorem claim_C3_row_count (sch : List CellSchema) (t : Template) (inp : Inputs) :
    (∀ (order : List String) (n : Nat), compileExecutionOrder t sch = .ok order →
      ∃ rows, processRows sch t inp n = .ok rows ∧ rows.length = n) ∧
    ((∀ p ∈ t, ∀ d ∈ p.2.currRowDependencies, d ∈ templateKeys t) →
      (∀ m ∈ schemaNames sch, m ∈ templateKeys t) →
      (∃ c, ReachableFromSchema t sch c ∧ Relation.TransGen (DepStep t) c c) →
      ∀ n : Nat, ∃ x, processRows sch t inp n = .error (.circular x)) := by
  constructor
  · intro order n hok
    have hkeys : ∀ c ∈ order, c ∈ templateKeys t := by
      obtain ⟨st, _, horder, H⟩ := compile_ok_state hok
      rw [← horder]
      exact H.inv.orderKeys
    obtain ⟨rows, hrows, hlen⟩ := processLoop_total t order inp hkeys n none
    exact ⟨rows, by simp [processRows, hok, hrows], hlen⟩
  · intro hwf hroots hcyc n
    obtain ⟨x, herr, _⟩ := compile_cyclic_error hwf hroots hcyc
    exact ⟨x, by simp [processRows, herr]⟩

/-- Witness for C3 on the self-cycle template at n = 0: the error fires
even though no rows are requested. -/
theorem claim_C3_witness :
    ∃ x, processRows schemaCyc templateCyc inputsZero 0 = .error (.circular x) :=
  (claim_C3_row_count schemaCyc templateCyc inputsZero).2 (by decide) (by decide)
    ⟨"a", ⟨"a", by decide, Relation.ReflTransGen.refl⟩,
      Relation.TransGen.single (show "a" ∈ depsOf templateCyc "a" by decide)⟩ 0

/-- C4: in a successful processRows run, row 0 is evaluated with a null
previous row and every later row i+1 is evaluated with row i's final
state as the previous row (evaluateRow hands exactly that state to every
formula it invokes). -/
theorem claim_C4_prev_row_chaining {sch : List CellSchema} {t : Template} {inp : Inputs}
    {n : Nat} {order : List String} {rows : List RowState}
    (hok : compileExecutionOrder t sch = .ok order)
    (h : processRows sch t inp n = .ok rows) :
    (∀ h0 : 0 < rows.length,
      evaluateRow t order emptyRowState none inp = .ok (rows.get ⟨0, h0⟩)) ∧
    (∀ (i : Nat) (hi : i < rows.length) (hi1 : i + 1 < rows.length),
      evaluateRow t order emptyRowState (some (rows.get ⟨i, hi⟩)) inp =
        .ok (rows.get ⟨i + 1, hi1⟩)) := by
  have hloop : processLoop t order inp n none = .ok rows := by
    simp only [processRows, hok] at h
    exact h
  exact chained_get t order inp rows none (processLoop_chained t order inp n none rows hloop)

/-- Witness for C4 on Scenario A: row 1 is produced from row 0's final
state. -/
theorem claim_C4_witness :
    evaluateRow templateA ["b", "a"] emptyRowState (some (rowAB 5)) inputsA =
      .ok (rowAB 6) := by
  have hok : compileExecutionOrder templateA schemaA = .ok ["b", "a"] := by
    simp [compileExecutionOrder, compileRoots, visit, visitDeps, lookupCell, templateA,
      schemaA, Except.map]
  have hrows : processRows schemaA templateA inputsA 3 = .ok [rowAB 5, rowAB 6, rowAB 7] := by
    rw [processRows, hok]
    rfl
  have H := (claim_C4_prev_row_chaining hok hrows).2 0 (by norm_num) (by norm_num)
  simpa using H

/-- C5: Scenario A evaluates to exactly the three rows with a and b both
5, 6, 7. -/
theorem claim_C5_scenario_A :
    processRows schemaA templateA inputsA 3 = .ok [rowAB 5, rowAB 6, rowAB 7] := by
  have hok : compileExecutionOrder templateA schemaA = .ok ["b", "a"] := by
    simp [compileExecutionOrder, compileRoots, visit, visitDeps, lookupCell, templateA,
      schemaA, Except.map]
  rw [processRows, hok]
  rfl

/-- Any column reachable by dependency edges from anywhere lands in the
schema, when every declared dependency name occurs in the schema. -/
theorem reach_in_schema {t : Template} {sch : List CellSchema}
    (hdeps : ∀ p ∈ t, ∀ d ∈ p.2.currRowDependencies, d ∈ schemaNames sch) :
    ∀ r x, r ∈ schemaNames sch → Relation.ReflTransGen (DepStep t) r x →
      x ∈ schemaNames sch := by
  intro r x hr hrt
  induction hrt with
  | refl => exact hr
  | tail _ hstep _ =>
    obtain ⟨cd, hl, hd⟩ := depStep_lookup hstep
    exact hdeps _ (lookupCell_mem hl) _ hd

/-- C6: whenever compileExecutionOrder returns an order for a template
whose dependency names all occur in the schema, the order is a permutation
of the schema's column names: it contains every schema name, repeats
nothing, and mentions nothing outside the schema. -/
theorem claim_C6_permutation {t : Template} {sch : List CellSchema} {order : List String}
    (h : compileExecutionOrder t sch = .ok order)
    (hdeps : ∀ p ∈ t, ∀ d ∈ p.2.currRowDependencies, d ∈ schemaNames sch)
    (hnd : (schemaNames sch).Nodup) :
    order.Nodup ∧ (∀ n ∈ schemaNames sch, n ∈ order) ∧
      (∀ c ∈ order, c ∈ schemaNames sch) ∧ order.Perm (schemaNames sch) := by
  obtain ⟨st, _, horder, H⟩ := compile_ok_state h
  have hnodup : order.Nodup := by rw [← horder]; exact H.inv.nodupOrder
  have hroots : ∀ n ∈ schemaNames sch, n ∈ order := order_roots h
  have hincl : ∀ c ∈ order, c ∈ schemaNames sch := by
    intro c hc
    have hvtd : c ∈ st.visited := by
      rw [← horder] at hc
      exact (H.inv.visited_iff c).mpr hc
    rcases H.new_reachable c hvtd with hfalse | ⟨r, hr, hrt⟩
    · simp at hfalse
    · exact reach_in_schema hdeps r c hr hrt
  refine ⟨hnodup, hroots, hincl, ?_⟩
  exact (List.perm_ext_iff_of_nodup hnodup hnd).mpr fun a => ⟨hincl a, hroots a⟩

/-- Witness for C6 on Scenario A: the order ["b", "a"] is a permutation of
the schema names ["a", "b"]. -/
theorem claim_C6_witness :
    (["b", "a"] : List String).Nodup ∧
      (∀ n ∈ schemaNames schemaA, n ∈ ["b", "a"]) ∧
      (∀ c ∈ ["b", "a"], c ∈ schemaNames schemaA) ∧
      (["b", "a"] : List String).Perm (schemaNames schemaA) := by
  have hok : compileExecutionOrder templateA schemaA = .ok ["b", "a"] := by
    simp [compileExecutionOrder, compileRoots, visit, visitDeps, lookupCell, templateA,
      schemaA, Except.map]
  exact claim_C6_permutation hok (by decide) (by decide)

/-- C7: processRows is deterministic: the embedding is a pure function, so
two calls with the same schema, template and row count and pointwise equal
inputs return identical output sequences. -/
theorem claim_C7_determinism (sch : List CellSchema) (t : Template) (n : Nat)
    (i1 i2 : Inputs) (h : ∀ k, i1 k = i2 k) :
    processRows sch t i1 n = processRows sch t i2 n := by
  have heq : i1 = i2 := funext h
  rw [heq]

/-- Inputs of Scenario A written differently, for the determinism witness. -/
def inputsA2 : Inputs := fun name => if name = "initialValue" then .num (4 + 1) else .num 0

/-- Witness for C7: the two syntactically different input records of
Scenario A produce identical runs. -/
theorem claim_C7_witness :
    processRows schemaA templateA inputsA 3 = processRows schemaA templateA inputsA2 3 :=
  claim_C7_determinism schemaA templateA 3 inputsA inputsA2 (by
    intro k
    by_cases hk : k = "initialValue" <;> simp [inputsA, inputsA2, hk])

/-- C8: the evaluation loop leaves the previous row and the inputs exactly
as they were; the only state it writes is the row under construction,
whose final value is what evaluateRow returns. -/
theorem claim_C8_frame {t : Template} {order : List String} {st st2 : EvalState}
    (h : evalCellsS t order st = .ok st2) :
    st2.prevRowState = st.prevRowState ∧ st2.inputs = st.inputs ∧
      evaluateRow t order st.rowState st.prevRowState st.inputs = .ok st2.rowState := by
  obtain ⟨h1, h2⟩ := evalCellsS_frame t order st st2 h
  refine ⟨h1, h2, ?_⟩
  have hdef : evaluateRow t order st.rowState st.prevRowState st.inputs =
      (evalCellsS t order st).map (fun s => s.rowState) := rfl
  rw [hdef, h]
  rfl

/-- Witness for C8 on the one-column constant template: the previous row
and inputs of the state survive the call unchanged. -/
theorem claim_C8_witness :
    evalCellsS templateX ["x"] ⟨emptyRowState, none, inputsZero⟩ =
      .ok ⟨setCell emptyRowState "x" (.num 1), none, inputsZero⟩ ∧
    ((⟨setCell emptyRowState "x" (.num 1), none, inputsZero⟩ : EvalState).prevRowState =
        (⟨emptyRowState, none, inputsZero⟩ : EvalState).prevRowState ∧
      (⟨setCell emptyRowState "x" (.num 1), none, inputsZero⟩ : EvalState).inputs =
        (⟨emptyRowState, none, inputsZero⟩ : EvalState).inputs ∧
      evaluateRow templateX ["x"] emptyRowState none inputsZero =
        .ok (setCell emptyRowState "x" (.num 1))) :=
  ⟨rfl, claim_C8_frame rfl⟩

/-- C9 counterexample: on the one-column constant template, the two
processRows variants return different row sequences — engine.ts stores the
result wrapped in an evaluatedValue object, part_000 stores it bare — so
the claim that they return equal sequences (same stored shape) is false. -/
theorem claim_C9_counterexample :
    EngineTs.processRows schemaX templateX inputsZero 1 ≠
      processRows schemaX templateX inputsZero 1 := by
  have h : compileExecutionOrder templateX schemaX = .ok ["x"] := by
    simp [compileExecutionOrder, compileRoots, visit, visitDeps, lookupCell, templateX,
      schemaX, Except.map]
  rw [EngineTs.processRows, processRows, h]
  intro heq
  have h2 := congrArg
    (fun res => match res with | Except.ok (r :: _) => r "x" | _ => none) heq
  simp [EngineTs.processLoop, processLoop, EngineTs.evaluateRow, evaluateRow,
    EngineTs.evalCellsS, evalCellsS, lookupCell, templateX, setCell, Except.map] at h2

/-- C9 amended: the two variants share the compiler, and whenever the
template's formulas return the same result on a context whose row values
are wrapped in evaluatedValue objects as on the bare context, the
engine.ts processRows returns exactly the part_000 rows with every stored
cell value wrapped; the sequences are never equal beyond that shape
difference. -/
theorem claim_C9_amended {sch : List CellSchema} {t : Template} {inp : Inputs} {n : Nat}
    (hf : ∀ c cd, lookupCell t c = some cd → ∀ prev curr,
      cd.formula ⟨Option.map wrapRow prev, wrapRow curr, inp⟩ =
        cd.formula ⟨prev, curr, inp⟩) :
    EngineTs.processRows sch t inp n = (processRows sch t inp n).map (List.map wrapRow) := by
  rw [EngineTs.processRows, processRows]
  cases hc : compileExecutionOrder t sch with
  | error e => simp [Except.map]
  | ok order =>
    have hrel := engine_processLoop_rel t order inp hf n none
    simpa [Option.map] using hrel

/-- Witness for C9 amended on the constant template: the engine.ts run is
the wrapped image of the part_000 run. -/
theorem claim_C9_witness :
    EngineTs.processRows schemaX templateX inputsZero 1 =
      (processRows schemaX templateX inputsZero 1).map (List.map wrapRow) :=
  claim_C9_amended (by
    intro c cd h prev curr
    simp only [lookupCell, templateX] at h
    by_cases hc : c = "x"
    · rw [if_pos hc] at h
      cases h
      rfl
    · rw [if_neg hc] at h
      cases h)

/-- The compileRoots sweep on a dependency-free template appends the schema
names in declared order. -/
theorem compileRoots_no_deps (t : Template) :
    ∀ (sch : List CellSchema) (s : CompileState),
      (∀ cell ∈ sch, ∃ cd, lookupCell t cell.name = some cd ∧
        cd.currRowDependencies = []) →
      (schemaNames sch).Nodup →
      (∀ cell ∈ sch, cell.name ∉ s.visited) →
      s.visiting = [] →
      ∃ s2, compileRoots t sch s = .ok s2 ∧
        s2.executionOrder = s.executionOrder ++ schemaNames sch := by
  intro sch
  induction sch with
  | nil =>
    intro s _ _ _ _
    exact ⟨s, by simp [compileRoots], by simp [schemaNames]⟩
  | cons cell rest ih =>
    intro s hlk hnd hnv hvnil
    obtain ⟨cd, hl, hcd⟩ := hlk cell (List.mem_cons_self _ _)
    have hnotvis : cell.name ∉ s.visiting := by rw [hvnil]; simp
    have hnotvtd : cell.name ∉ s.visited := hnv cell (List.mem_cons_self _ _)
    have hvisit : visit t (t.length + 1) cell.name s =
        .ok ⟨s.executionOrder ++ [cell.name], cell.name :: s.visited, []⟩ := by
      simp [visit, hnotvis, hnotvtd, hl, hcd, visitDeps, hvnil]
    have hndrest : (schemaNames rest).Nodup := by
      rw [schemaNames_cons] at hnd
      exact (List.nodup_cons.mp hnd).2
    have hnamenew : cell.name ∉ schemaNames rest := by
      rw [schemaNames_cons] at hnd
      exact (List.nodup_cons.mp hnd).1
    obtain ⟨s2, h2, horder⟩ := ih ⟨s.executionOrder ++ [cell.name], cell.name :: s.visited, []⟩
      (fun c2 hc2 => hlk c2 (List.mem_cons_of_mem _ hc2)) hndrest
      (by
        intro c2 hc2 hmem
        rcases List.mem_cons.mp hmem with heq | hmem2
        · exact hnamenew (heq ▸ List.mem_map_of_mem _ hc2)
        · exact hnv c2 (List.mem_cons_of_mem _ hc2) hmem2)
      rfl
    refine ⟨s2, by simp [compileRoots, hnotvtd, hvisit, h2], ?_⟩
    rw [horder]
    simp [schemaNames_cons]

/-- C10: when every column's dependency list is empty (and the schema has
no duplicate names, each with a template entry), compileExecutionOrder
returns exactly the schema's declared column-name order. -/
theorem claim_C10_no_deps_schema_order {t : Template} {sch : List CellSchema}
    (hlk : ∀ cell ∈ sch, ∃ cd, lookupCell t cell.name = some cd ∧
      cd.currRowDependencies = [])
    (hnd : (schemaNames sch).Nodup) :
    compileExecutionOrder t sch = .ok (schemaNames sch) := by
  obtain ⟨s2, h2, ho⟩ := compileRoots_no_deps t sch ⟨[], [], []⟩ hlk hnd (by simp) rfl
  simp [compileExecutionOrder, h2, Except.map, ho]

/-- Witness for C10 on the one-column dependency-free template. -/
theorem claim_C10_witness :
    compileExecutionOrder templateX schemaX = .ok (schemaNames schemaX) :=
  claim_C10_no_deps_schema_order
    (by
      intro cell hc
      simp only [schemaX, List.mem_singleton] at hc
      subst hc
      exact ⟨_, rfl, rfl⟩)
    (by decide)
